import Mathlib

/-!
Verification of the path-and-variable composition engine of `cpp-proj-gen`
(`src/cpp_proj_gen.rs`), a C++ project scaffolding tool.

The Rust code is shallowly embedded:
* `PathBuf` becomes `Path`: an absoluteness flag plus a list of components.
  A component is an `OsStr`: either valid UTF-8 (`utf8`) or arbitrary bytes
  (`bytes`); `OsStr::to_str` succeeds exactly on the former, which is what
  the Rust `unwrap` calls in `add_include_dir` / `add_source_dir` hinge on.
* a Rust computation that may `unwrap`-panic is modelled by `PanicOr`;
* `HashMap<String, String>` becomes an association list with unique keys
  (`insertVar` overwrites in place); its unspecified iteration order is
  handled by quantifying over permutations of the list where it matters;
* `str::replace` becomes `replaceL` on `List Char` (leftmost,
  non-overlapping, all occurrences; an empty pattern matches at every
  boundary, as in Rust);
* the filesystem is an oracle `FsOp → Except String Unit`; generation
  returns the trace of progress calls and attempted filesystem operations
  together with the propagated result.
The template text (`res/CMakeLists.txt.in`, pulled in by `include_str!`)
is an external resource and is passed as a parameter where needed.
-/

namespace Cpg

/-- One path component of an OS string: valid UTF-8 or raw bytes. -/
inductive OsStr where
  | utf8 (s : String)
  | bytes (bs : List Nat)
deriving DecidableEq

/-- `OsStr::to_str`: `some` exactly when the component is valid UTF-8. -/
def OsStr.toStrOpt : OsStr → Option String
  | .utf8 s => some s
  | .bytes _ => none

/-- Model of `std::path::PathBuf`: absoluteness flag plus components. -/
structure Path where
  absolute : Bool
  components : List OsStr
deriving DecidableEq

/-- Splits a character list at `'/'` separators; always returns a
nonempty list of segments (mirroring how `PathBuf::from` splits a
string into components). -/
def splitSlash : List Char → List (List Char)
  | [] => [[]]
  | c :: cs =>
    match splitSlash cs with
    | [] => [[c]]
    | hd :: tl => if c = '/' then [] :: hd :: tl else (c :: hd) :: tl

/-- `PathBuf::from` on a valid UTF-8 string: a leading `'/'` makes the
path absolute, the rest is split at `'/'` into UTF-8 components. -/
def pathFrom (s : String) : Path :=
  match s.data with
  | [] => ⟨false, []⟩
  | '/' :: rest => ⟨true, (splitSlash rest).map (fun cs => OsStr.utf8 (String.mk cs))⟩
  | l => ⟨false, (splitSlash l).map (fun cs => OsStr.utf8 (String.mk cs))⟩

/-- `PathBuf::push` / `[p, q].iter().collect()`: pushing an absolute
path replaces the whole path, otherwise components are appended. -/
def Path.join (p q : Path) : Path :=
  if q.absolute then q else ⟨p.absolute, p.components ++ q.components⟩

/-- `PathBuf::to_str`: the slash-joined string form, available exactly
when every component is valid UTF-8. -/
def Path.toStrOpt (p : Path) : Option String :=
  (p.components.mapM OsStr.toStrOpt).map
    (fun cs => (if p.absolute then "/" else "") ++ String.intercalate "/" cs)

/-- `Path::ends_with` applied to a single file name: the last component
equals that name. -/
def Path.endsWithName (p : Path) (name : String) : Bool :=
  p.components.getLast? = some (OsStr.utf8 name)

/-- Outcome of a Rust computation that may panic (via `unwrap`). -/
inductive PanicOr (α : Type) where
  | panicked (msg : String)
  | ok (val : α)
deriving DecidableEq

/-- Extract the value of a non-panicking computation, with a default. -/
def PanicOr.getD {α : Type} : PanicOr α → α → α
  | .ok a, _ => a
  | .panicked _, d => d

/-- `const CMLT_FILE_NAME: &str = "CMakeLists.txt";` -/
def CMLT_FILE_NAME : String := "CMakeLists.txt"

/-- The `Opt` options struct (CLI parsing itself is out of scope). -/
structure Opt where
  name_space : Option String
  target_name : String
  cmake_version : String
  output_dir : Option Path
deriving DecidableEq

/-- `fn build_cmake_project_name(opt: &Opt, delimiter: &str) -> String`. -/
def build_cmake_project_name (opt : Opt) (delimiter : String) : String :=
  match opt.name_space with
  | none => opt.target_name
  | some ns => ns ++ delimiter ++ opt.target_name

/-- `fn build_cmake_local_include_dir(opt: &Opt, dir: PathBuf) -> PathBuf`:
`[dir, target]` or `[dir, name_space, target]` collected into a path. -/
def build_cmake_local_include_dir (opt : Opt) (dir : Path) : Path :=
  match opt.name_space with
  | none => Path.join dir (pathFrom opt.target_name)
  | some ns => Path.join (Path.join dir (pathFrom ns)) (pathFrom opt.target_name)

/-- `fn build_out_dir(opt: &Opt) -> PathBuf`. The current working
directory is an input (`cwd`), consulted only when `output_dir` is
absent; its failure hits `std::env::current_dir().unwrap()`, a panic. -/
def build_out_dir (opt : Opt) (cwd : Except String Path) : PanicOr Path :=
  match opt.output_dir with
  | some p => .ok (Path.join p (pathFrom opt.target_name))
  | none =>
    match cwd with
    | .ok c => .ok (Path.join c (pathFrom opt.target_name))
    | .error e => .panicked ("called Result::unwrap on an Err value: " ++ e)

/-- `fn make_absolute_path(out_dir: &PathBuf, dir: &PathBuf) -> PathBuf`. -/
def make_absolute_path (out_dir : Path) (dir : Path) : Path :=
  Path.join out_dir dir

/-- `str::replace pat -> rep` on character lists: leftmost-first,
non-overlapping, replaces every occurrence. An empty pattern matches at
every character boundary, as in Rust. -/
def replaceL (pat rep : List Char) (s : List Char) : List Char :=
  if pat = [] then rep ++ s.foldr (fun c acc => c :: (rep ++ acc)) []
  else
    match s with
    | [] => []
    | c :: cs =>
      if pat <+: c :: cs then
        rep ++ replaceL pat rep (cs.drop (pat.length - 1))
      else
        c :: replaceL pat rep cs
termination_by s.length
decreasing_by
  · simp only [List.length_cons]
    exact Nat.lt_succ_of_le (List.length_drop _ cs ▸ Nat.sub_le _ _)
  · simp

/-- Rust `String::replace` lifted to Lean strings. -/
def strReplace (s pat rep : String) : String :=
  String.mk (replaceL pat.data rep.data s.data)

/-- `fn replace_cmake_vars(cmake_contents: &str, cmake_vars: &HashMap<String, String>) -> String`.
The `HashMap` is given as an association list in some iteration order. -/
def replace_cmake_vars (cmake_contents : String) (cmake_vars : List (String × String)) : String :=
  cmake_vars.foldl (fun result kv => strReplace result kv.1 kv.2) cmake_contents

/-- `HashMap::insert`: overwrite the binding if the key is present,
otherwise add it. -/
def insertVar (m : List (String × String)) (k v : String) : List (String × String) :=
  if m.any (fun kv => kv.1 = k) then
    m.map (fun kv => if kv.1 = k then (k, v) else kv)
  else
    m ++ [(k, v)]

/-- `HashMap::get`-style lookup in the association list. -/
def lookupVar (k : String) : List (String × String) → Option String
  | [] => none
  | kv :: rest => if kv.1 = k then some kv.2 else lookupVar k rest

/-- The `CppProjGen` generator state. -/
structure CppProjGen where
  directories : List Path
  cmake_lists_file : Path
  cmake_vars : List (String × String)
  opt : Opt
  out_dir : Path
deriving DecidableEq

/-- `CppProjGen::new(opt)`: seeds the four reserved variables and the
output root; panics if `build_out_dir` does (absent output dir and
failing cwd lookup). -/
def CppProjGen.new (opt : Opt) (cwd : Except String Path) : PanicOr CppProjGen :=
  match build_out_dir opt cwd with
  | .panicked m => .panicked m
  | .ok od =>
    .ok
      { directories := []
        cmake_lists_file := pathFrom CMLT_FILE_NAME
        cmake_vars :=
          [("@CMAKE_MINIMUM_VERSION@", opt.cmake_version),
           ("@CMAKE_TARGET_NAME@", opt.target_name),
           ("@CMAKE_PROJECT_NAME@", build_cmake_project_name opt "-"),
           ("@INCLUDE_DOMAIN_DIR@", build_cmake_project_name opt "/")]
        opt := opt
        out_dir := od }

/-- `CppProjGen::add_toplevel_dir`: push onto the directory list. -/
def CppProjGen.add_toplevel_dir (g : CppProjGen) (dir : Path) : CppProjGen :=
  { g with directories := g.directories ++ [dir] }

/-- `CppProjGen::add_include_dir`: record `@INCLUDE_DIR@` (panicking on a
non-UTF-8 path, via `dir.to_str().unwrap()`), then append the
namespace-qualified local include directory. -/
def CppProjGen.add_include_dir (g : CppProjGen) (dir : Path) : PanicOr CppProjGen :=
  match Path.toStrOpt dir with
  | none => .panicked "called Option::unwrap on a None value"
  | some s =>
    let g1 := { g with cmake_vars := insertVar g.cmake_vars "@INCLUDE_DIR@" s }
    let local_include_dir := build_cmake_local_include_dir g1.opt dir
    .ok (g1.add_toplevel_dir local_include_dir)

/-- `CppProjGen::add_source_dir`: record `@SOURCE_DIR@` (same potential
panic), then append the directory unchanged. -/
def CppProjGen.add_source_dir (g : CppProjGen) (dir : Path) : PanicOr CppProjGen :=
  match Path.toStrOpt dir with
  | none => .panicked "called Option::unwrap on a None value"
  | some s =>
    let g1 := { g with cmake_vars := insertVar g.cmake_vars "@SOURCE_DIR@" s }
    .ok (g1.add_toplevel_dir dir)

/-- `CppProjGen::build_paths`: every registered directory joined with the
output root, in order, then the generated file's path. -/
def build_paths (g : CppProjGen) : List Path :=
  g.directories.map (make_absolute_path g.out_dir) ++
    [make_absolute_path g.out_dir g.cmake_lists_file]

/-- A filesystem operation attempted during generation. -/
inductive FsOp where
  | writeFile (p : Path) (contents : String)
  | createDirAll (p : Path)
deriving DecidableEq

/-- An observable event of generation: a progress callback invocation or
an attempted filesystem operation. -/
inductive Ev where
  | progressCall (s : String)
  | fsDo (op : FsOp)
deriving DecidableEq

/-- The filesystem operation `create_all_paths` chooses for a path:
write the file iff the last component is `CMakeLists.txt`, else create
the directory recursively. -/
def opFor (contents : String) (p : Path) : FsOp :=
  if Path.endsWithName p CMLT_FILE_NAME then FsOp.writeFile p contents
  else FsOp.createDirAll p

/-- `fn create_all_paths(paths, contents, progress) -> io::Result<()>`:
walks the paths in order, reporting progress (panicking on a non-UTF-8
path while doing so), writing the file or creating the directory, and
returning the first filesystem error. The returned trace lists the
progress calls and the attempted operations. -/
def create_all_paths (fs : FsOp → Except String Unit) (paths : List Path)
    (contents : String) (progressSome : Bool) :
    PanicOr (List Ev × Except String Unit) :=
  match paths with
  | [] => .ok ([], .ok ())
  | p :: rest =>
    let progressEvs : PanicOr (List Ev) :=
      if progressSome then
        match Path.toStrOpt p with
        | some s => .ok [Ev.progressCall s]
        | none => .panicked "called Option::unwrap on a None value"
      else .ok []
    match progressEvs with
    | .panicked m => .panicked m
    | .ok evs =>
      let op := if Path.endsWithName p CMLT_FILE_NAME then FsOp.writeFile p contents
                else FsOp.createDirAll p
      match fs op with
      | .error e => .ok (evs ++ [Ev.fsDo op], .error e)
      | .ok _ =>
        match create_all_paths fs rest contents progressSome with
        | .panicked m => .panicked m
        | .ok (evs', res) => .ok (evs ++ [Ev.fsDo op] ++ evs', res)

/-- `CppProjGen::gen`: render the template, build the paths, materialize
them. `cmlt` is the template text (`include_str!`, an external
resource). -/
def CppProjGen.gen (cmlt : String) (g : CppProjGen) (fs : FsOp → Except String Unit)
    (progressSome : Bool) : PanicOr (List Ev × Except String Unit) :=
  create_all_paths fs (build_paths g) (replace_cmake_vars cmlt g.cmake_vars) progressSome

/-- Generator states reachable through the public constructor and the
chained add-directory operations. -/
inductive Reachable : CppProjGen → Prop where
  | new : ∀ opt cwd g, CppProjGen.new opt cwd = .ok g → Reachable g
  | includeDir : ∀ g d g', Reachable g → CppProjGen.add_include_dir g d = .ok g' → Reachable g'
  | sourceDir : ∀ g d g', Reachable g → CppProjGen.add_source_dir g d = .ok g' → Reachable g'
  | toplevelDir : ∀ g d, Reachable g → Reachable (g.add_toplevel_dir d)

/-- A filesystem oracle on which every operation succeeds. -/
def fsAllOk : FsOp → Except String Unit := fun _ => .ok ()

/-- The options of the round-trip scenario of the spec: namespace
`acme`, target `widget`, output base `/out`. -/
def optRoundTrip : Opt :=
  { name_space := some "acme"
    target_name := "widget"
    cmake_version := "3.15.0"
    output_dir := some (pathFrom "/out") }

/-- A placeholder generator value used only as a `getD` default. -/
def dummyGen : CppProjGen :=
  { directories := []
    cmake_lists_file := ⟨false, []⟩
    cmake_vars := []
    opt := { name_space := none, target_name := "", cmake_version := "", output_dir := none }
    out_dir := ⟨false, []⟩ }

/-- The generator freshly constructed for the round-trip scenario. -/
def genRT0 : CppProjGen :=
  (CppProjGen.new optRoundTrip (.ok (pathFrom "somewhere"))).getD dummyGen

/-- The round-trip generator after registering include dir `include`. -/
def genRT1 : CppProjGen :=
  (genRT0.add_include_dir (pathFrom "include")).getD dummyGen

/-- The generator obtained from `dummyGen` by registering include
directory `include` (used to instantiate hypothesised theorems). -/
def genC9inc : CppProjGen :=
  (dummyGen.add_include_dir (pathFrom "include")).getD dummyGen

/-- The generator obtained from `dummyGen` by registering source
directory `source` (used to instantiate hypothesised theorems). -/
def genC9src : CppProjGen :=
  (dummyGen.add_source_dir (pathFrom "source")).getD dummyGen

/-- A filesystem oracle that rejects creating the directory `bad` and
accepts everything else. -/
def fsDenyBad : FsOp → Except String Unit :=
  fun op => if op = FsOp.createDirAll (pathFrom "bad") then .error "permission denied" else .ok ()

/-- Joins a list of segments, interposing `sep` between consecutive
segments (the shape of a text split at the occurrences of a
placeholder). -/
def joinWith (sep : List Char) : List (List Char) → List Char
  | [] => []
  | [p] => p
  | p :: ps => p ++ sep ++ joinWith sep ps

/-- A segment of a structured template: literal text, or a whole
placeholder token carried together with its substitution value. -/
inductive Seg where
  | lit (l : List Char)
  | tok (k v : List Char)
deriving DecidableEq

/-- The template text denoted by a segment list. -/
def flattenS : List Seg → List Char
  | [] => []
  | .lit l :: rest => l ++ flattenS rest
  | .tok k _ :: rest => k ++ flattenS rest

/-- Replace every token whose key is `k` by the literal `v` (the
segment-level effect of one `str::replace` pass). -/
def substTok (k v : List Char) (segs : List Seg) : List Seg :=
  segs.map (fun sg => match sg with
    | .lit l => .lit l
    | .tok x vx => if x = k then .lit v else .tok x vx)

/-- Replace every token by its value: the fully rendered form. -/
def substAll (segs : List Seg) : List Seg :=
  segs.map (fun sg => match sg with
    | .lit l => .lit l
    | .tok _ vx => .lit vx)

/-- The text a segment contributes once fully substituted. -/
def segContent : Seg → List Char
  | .lit l => l
  | .tok _ v => v

/-- A placeholder key written in distinguishing syntax: the marker `c`,
a nonempty marker-free interior, the marker again (e.g. the program's
`@CMAKE_TARGET_NAME@` with marker `'@'`). -/
def Bracketed (c : Char) (k : List Char) : Prop :=
  ∃ w, w ≠ [] ∧ c ∉ w ∧ k = c :: (w ++ [c])

/-- The template-dependent disjointness precondition: the template is an
alternation of literal segments and whole-key tokens of the live map
`m`; keys are `c`-bracketed and pairwise distinct, values and literals
are `c`-free, and no key equals the `c`-bracketing of the text that any
run of segments strictly between two tokens renders to — so no
occurrence of a key can straddle a token boundary, before or after any
substitutions. -/
structure GoodTemplate (c : Char) (m : List (List Char × List Char)) (segs : List Seg) : Prop where
  lit_free : ∀ l, Seg.lit l ∈ segs → c ∉ l
  tok_live : ∀ k v, Seg.tok k v ∈ segs → (k, v) ∈ m
  keys_bracketed : ∀ kv ∈ m, Bracketed c kv.1
  vals_free : ∀ kv ∈ m, c ∉ kv.2
  keys_nodup : (m.map Prod.fst).Nodup
  gap_free : ∀ A x vx M y vy C, segs = A ++ Seg.tok x vx :: (M ++ Seg.tok y vy :: C) →
      ∀ kv ∈ m, kv.1 ≠ c :: (flattenS (substAll M) ++ [c])

theorem lookupVar_insertVar (k v : String) :
    ∀ m : List (String × String), lookupVar k (insertVar m k v) = some v := by
  intro m
  induction m with
  | nil => simp [insertVar, lookupVar]
  | cons a m ih =>
    by_cases hak : a.1 = k
    · simp [insertVar, lookupVar, hak]
    · by_cases hm : m.any (fun kv => kv.1 = k)
      · simpa [insertVar, lookupVar, hak, hm] using by
          simpa [insertVar, hm] using ih
      · simpa [insertVar, lookupVar, hak, hm] using by
          simpa [insertVar, hm] using ih

theorem cmake_lists_file_of_reachable (g : CppProjGen) (h : Reachable g) :
    g.cmake_lists_file = pathFrom CMLT_FILE_NAME := by
  induction h with
  | new opt cwd g hg =>
    cases hbo : build_out_dir opt cwd with
    | panicked m => simp [CppProjGen.new, hbo] at hg
    | ok od =>
      simp only [CppProjGen.new, hbo] at hg
      cases hg
      rfl
  | includeDir g d g' hr hstep ih =>
    cases htos : Path.toStrOpt d with
    | none => simp [CppProjGen.add_include_dir, htos] at hstep
    | some s =>
      simp only [CppProjGen.add_include_dir, htos] at hstep
      cases hstep
      simpa [CppProjGen.add_toplevel_dir] using ih
  | sourceDir g d g' hr hstep ih =>
    cases htos : Path.toStrOpt d with
    | none => simp [CppProjGen.add_source_dir, htos] at hstep
    | some s =>
      simp only [CppProjGen.add_source_dir, htos] at hstep
      cases hstep
      simpa [CppProjGen.add_toplevel_dir] using ih
  | toplevelDir g d hr ih =>
    simpa [CppProjGen.add_toplevel_dir] using ih

/-- Claim C1: for every registered include directory `d`, the directory
entry appended is `d/targetName` when the namespace is absent and
`d/namespace/targetName` when it is present; in the round-trip scenario
(namespace `acme`, target `widget`, output base `/out`, include dir
`include`) the composed path list contains
`/out/widget/include/acme/widget`. -/
theorem c1_include_dir_composition :
    (∀ (g : CppProjGen) (d : Path) (g' : CppProjGen),
        g.add_include_dir d = .ok g' →
        g'.directories = g.directories ++
          [match g.opt.name_space with
           | none => Path.join d (pathFrom g.opt.target_name)
           | some ns => Path.join (Path.join d (pathFrom ns)) (pathFrom g.opt.target_name)]) ∧
    (CppProjGen.new optRoundTrip (.ok (pathFrom "somewhere")) = .ok genRT0 ∧
     genRT0.add_include_dir (pathFrom "include") = .ok genRT1 ∧
     pathFrom "/out/widget/include/acme/widget" ∈ build_paths genRT1) := by
  constructor
  · intro g d g' h
    cases htos : Path.toStrOpt d with
    | none => simp [CppProjGen.add_include_dir, htos] at h
    | some s =>
      simp only [CppProjGen.add_include_dir, htos] at h
      cases h
      rfl
  · exact ⟨rfl, rfl, by decide⟩

/-- Claim C1 witness: the first part of the claim instantiated in the
round-trip scenario. -/
theorem c1_include_dir_composition_witness :
    genRT1.directories = genRT0.directories ++
      [Path.join (Path.join (pathFrom "include") (pathFrom "acme")) (pathFrom "widget")] :=
  c1_include_dir_composition.1 genRT0 (pathFrom "include") genRT1 rfl

/-- Claim C2: `build_paths` returns exactly `directories.length + 1`
entries: each registered directory joined with the output root in
registration order, followed last by the generated-file path; on every
reachable generator state the generated file is `CMakeLists.txt`. -/
theorem c2_build_paths_shape (g : CppProjGen) :
    (build_paths g).length = g.directories.length + 1 ∧
    (build_paths g).take g.directories.length
      = g.directories.map (make_absolute_path g.out_dir) ∧
    (build_paths g).getLast? = some (make_absolute_path g.out_dir g.cmake_lists_file) ∧
    (Reachable g → g.cmake_lists_file = pathFrom CMLT_FILE_NAME) := by
  refine ⟨?_, ?_, ?_, cmake_lists_file_of_reachable g⟩
  · simp [build_paths]
  · rw [build_paths, List.take_left' (by simp)]
  · rw [build_paths, List.getLast?_concat]

/-- Claim C2 witness: the reachability hypothesis discharged on the
concrete round-trip generator. -/
theorem c2_build_paths_shape_witness :
    genRT1.cmake_lists_file = pathFrom CMLT_FILE_NAME ∧
    (build_paths genRT1).length = genRT1.directories.length + 1 :=
  ⟨(c2_build_paths_shape genRT1).2.2.2
      (Reachable.includeDir genRT0 (pathFrom "include") genRT1
        (Reachable.new optRoundTrip (.ok (pathFrom "somewhere")) genRT0 rfl) rfl),
   (c2_build_paths_shape genRT1).1⟩

/-- Claim C4: the identifier-composition function returns the target
name unchanged when the namespace is absent and
`namespace ++ delimiter ++ targetName` when present; the generator uses
it with delimiter `-` for `@CMAKE_PROJECT_NAME@` and delimiter `/` for
`@INCLUDE_DOMAIN_DIR@`. -/
theorem c4_project_name (opt : Opt) (delimiter : String) :
    (opt.name_space = none → build_cmake_project_name opt delimiter = opt.target_name) ∧
    (∀ ns, opt.name_space = some ns →
        build_cmake_project_name opt delimiter = ns ++ delimiter ++ opt.target_name) ∧
    (∀ cwd g, CppProjGen.new opt cwd = .ok g →
        lookupVar "@CMAKE_PROJECT_NAME@" g.cmake_vars
            = some (build_cmake_project_name opt "-") ∧
        lookupVar "@INCLUDE_DOMAIN_DIR@" g.cmake_vars
            = some (build_cmake_project_name opt "/")) := by
  refine ⟨?_, ?_, ?_⟩
  · intro h; simp [build_cmake_project_name, h]
  · intro ns h; simp [build_cmake_project_name, h]
  · intro cwd g hg
    cases hbo : build_out_dir opt cwd with
    | panicked m => simp [CppProjGen.new, hbo] at hg
    | ok od =>
      simp only [CppProjGen.new, hbo] at hg
      cases hg
      constructor
      · simp [lookupVar]
      · simp [lookupVar]

/-- Claim C4 witness: instantiated for namespace `acme`, target
`widget`, and the freshly constructed round-trip generator. -/
theorem c4_project_name_witness :
    build_cmake_project_name optRoundTrip "-" = "acme" ++ "-" ++ "widget" ∧
    lookupVar "@CMAKE_PROJECT_NAME@" genRT0.cmake_vars
      = some (build_cmake_project_name optRoundTrip "-") :=
  ⟨(c4_project_name optRoundTrip "-").2.1 "acme" rfl,
   ((c4_project_name optRoundTrip "-").2.2 (.ok (pathFrom "somewhere")) genRT0 rfl).1⟩

/-- Claim C5 counterexample: with the output base directory absent and a
failing current-working-directory lookup, `build_out_dir` panics (the
`unwrap` in the source); the OS error is not propagated to the caller as
a typed failure result. -/
theorem c5_counterexample :
    build_out_dir
        { name_space := none, target_name := "my-target",
          cmake_version := "3.15.0", output_dir := none }
        (.error "EACCES")
      = .panicked "called Result::unwrap on an Err value: EACCES" := rfl

/-- Claim C5 (amended): the output root equals `baseDir/targetName` when
an output base directory is provided and `cwd/targetName` otherwise;
when the output base directory is absent and the cwd lookup fails, the
computation panics via `unwrap` instead of returning a typed failure
result, and this is the only failure case. -/
theorem c5_output_root_amended (opt : Opt) (cwd : Except String Path) :
    (∀ p, opt.output_dir = some p →
        build_out_dir opt cwd = .ok (Path.join p (pathFrom opt.target_name))) ∧
    (∀ c, opt.output_dir = none → cwd = .ok c →
        build_out_dir opt cwd = .ok (Path.join c (pathFrom opt.target_name))) ∧
    (∀ e, opt.output_dir = none → cwd = .error e →
        build_out_dir opt cwd
          = .panicked ("called Result::unwrap on an Err value: " ++ e)) := by
  refine ⟨?_, ?_, ?_⟩
  · intro p hp; simp [build_out_dir, hp]
  · intro c ho hc; simp [build_out_dir, ho, hc]
  · intro e ho he; simp [build_out_dir, ho, he]

/-- Claim C5 witness: the provided-base case instantiated concretely. -/
theorem c5_output_root_amended_witness :
    build_out_dir optRoundTrip (.ok (pathFrom "somewhere"))
      = .ok (Path.join (pathFrom "/out") (pathFrom "widget")) :=
  (c5_output_root_amended optRoundTrip (.ok (pathFrom "somewhere"))).1 (pathFrom "/out") rfl

/-- Claim C9: after `add_include_dir d` the variable `@INCLUDE_DIR@`
holds the string form of `d` itself while the appended directory entry
is the composed namespace-qualified path; after `add_source_dir d` both
the `@SOURCE_DIR@` value and the appended entry are `d` unchanged. -/
theorem c9_add_dir_variables (g : CppProjGen) (d : Path) (s : String)
    (hs : Path.toStrOpt d = some s) :
    (∀ g', g.add_include_dir d = .ok g' →
        lookupVar "@INCLUDE_DIR@" g'.cmake_vars = some s ∧
        g'.directories = g.directories ++ [build_cmake_local_include_dir g.opt d]) ∧
    (∀ g', g.add_source_dir d = .ok g' →
        lookupVar "@SOURCE_DIR@" g'.cmake_vars = some s ∧
        g'.directories = g.directories ++ [d]) := by
  constructor
  · intro g' h
    simp only [CppProjGen.add_include_dir, hs] at h
    cases h
    exact ⟨lookupVar_insertVar _ _ _, rfl⟩
  · intro g' h
    simp only [CppProjGen.add_source_dir, hs] at h
    cases h
    exact ⟨lookupVar_insertVar _ _ _, rfl⟩

/-- Claim C9 witness: instantiated on concrete include and source
directory registrations. -/
theorem c9_add_dir_variables_witness :
    (lookupVar "@INCLUDE_DIR@" genC9inc.cmake_vars = some "include" ∧
     genC9inc.directories
       = dummyGen.directories ++ [build_cmake_local_include_dir dummyGen.opt (pathFrom "include")]) ∧
    (lookupVar "@SOURCE_DIR@" genC9src.cmake_vars = some "source" ∧
     genC9src.directories = dummyGen.directories ++ [pathFrom "source"]) :=
  ⟨(c9_add_dir_variables dummyGen (pathFrom "include") "include" rfl).1 genC9inc rfl,
   (c9_add_dir_variables dummyGen (pathFrom "source") "source" rfl).2 genC9src rfl⟩

/-- Claim C10: on a directory argument whose path is valid UTF-8,
`add_include_dir` and `add_source_dir` complete without panicking; on a
non-UTF-8 path both operations panic rather than return an error. -/
theorem c10_utf8_no_panic (g : CppProjGen) (d : Path) :
    ((Path.toStrOpt d).isSome →
        (∃ g', g.add_include_dir d = .ok g') ∧ (∃ g', g.add_source_dir d = .ok g')) ∧
    ((Path.toStrOpt d).isNone →
        (∃ m, g.add_include_dir d = .panicked m) ∧
        (∃ m, g.add_source_dir d = .panicked m)) := by
  constructor
  · intro hsome
    cases htos : Path.toStrOpt d with
    | none => rw [htos] at hsome; cases hsome
    | some s =>
      have h1 : g.add_include_dir d
          = .ok (CppProjGen.add_toplevel_dir
              { g with cmake_vars := insertVar g.cmake_vars "@INCLUDE_DIR@" s }
              (build_cmake_local_include_dir g.opt d)) := by
        simp [CppProjGen.add_include_dir, htos]
      have h2 : g.add_source_dir d
          = .ok (CppProjGen.add_toplevel_dir
              { g with cmake_vars := insertVar g.cmake_vars "@SOURCE_DIR@" s } d) := by
        simp [CppProjGen.add_source_dir, htos]
      exact ⟨⟨_, h1⟩, ⟨_, h2⟩⟩
  · intro hnone
    cases htos : Path.toStrOpt d with
    | none =>
      have h1 : g.add_include_dir d = .panicked "called Option::unwrap on a None value" := by
        simp [CppProjGen.add_include_dir, htos]
      have h2 : g.add_source_dir d = .panicked "called Option::unwrap on a None value" := by
        simp [CppProjGen.add_source_dir, htos]
      exact ⟨⟨_, h1⟩, ⟨_, h2⟩⟩
    | some s => rw [htos] at hnone; cases hnone

/-- Claim C10 witness: a valid UTF-8 path does not panic, a raw-bytes
path panics, both instantiated concretely. -/
theorem c10_utf8_no_panic_witness :
    ((∃ g', dummyGen.add_include_dir (pathFrom "include") = .ok g') ∧
     (∃ g', dummyGen.add_source_dir (pathFrom "include") = .ok g')) ∧
    ((∃ m, dummyGen.add_include_dir ⟨false, [OsStr.bytes [255]]⟩ = .panicked m) ∧
     (∃ m, dummyGen.add_source_dir ⟨false, [OsStr.bytes [255]]⟩ = .panicked m)) :=
  ⟨(c10_utf8_no_panic dummyGen (pathFrom "include")).1 rfl,
   (c10_utf8_no_panic dummyGen ⟨false, [OsStr.bytes [255]]⟩).2 rfl⟩

theorem create_all_paths_all_ok (fs : FsOp → Except String Unit) (contents : String)
    (hfs : ∀ op, fs op = .ok ()) :
    ∀ ps : List Path,
      create_all_paths fs ps contents false
        = .ok (ps.map (fun p => Ev.fsDo (opFor contents p)), .ok ()) := by
  intro ps
  induction ps with
  | nil => rfl
  | cons p rest ih =>
    simp only [create_all_paths, Bool.false_eq_true, ite_false, hfs, ih, List.map_cons, opFor]
    rfl

/-- Claim C6: during generation a path is written as the generated file
exactly when its final segment equals `CMakeLists.txt`, and is created
as a directory otherwise; consequently a registered directory whose path
ends with that literal (here `docs/CMakeLists.txt`) is misclassified and
written as the file. -/
theorem c6_file_dir_discrimination :
    (∀ (contents : String) (p : Path),
        (opFor contents p = FsOp.writeFile p contents ↔
          Path.endsWithName p CMLT_FILE_NAME = true) ∧
        (opFor contents p = FsOp.createDirAll p ↔
          ¬ Path.endsWithName p CMLT_FILE_NAME = true)) ∧
    (∀ (fs : FsOp → Except String Unit) (ps : List Path) (contents : String),
        (∀ op, fs op = .ok ()) →
        create_all_paths fs ps contents false
          = .ok (ps.map (fun p => Ev.fsDo (opFor contents p)), .ok ())) ∧
    (Path.endsWithName (pathFrom "docs/CMakeLists.txt") CMLT_FILE_NAME = true ∧
     create_all_paths fsAllOk [pathFrom "docs/CMakeLists.txt"] "content" false
       = .ok ([Ev.fsDo (FsOp.writeFile (pathFrom "docs/CMakeLists.txt") "content")],
              .ok ())) := by
  refine ⟨?_, fun fs ps contents hfs => create_all_paths_all_ok fs contents hfs ps, by decide, rfl⟩
  intro contents p
  by_cases h : Path.endsWithName p CMLT_FILE_NAME = true
  · simp [opFor, h]
  · simp [opFor, h]

/-- Claim C6 witness: the all-success characterization instantiated on a
concrete path list with one directory and the generated file. -/
theorem c6_file_dir_discrimination_witness :
    create_all_paths fsAllOk [pathFrom "include", pathFrom "CMakeLists.txt"] "content" false
      = .ok ([Ev.fsDo (FsOp.createDirAll (pathFrom "include")),
              Ev.fsDo (FsOp.writeFile (pathFrom "CMakeLists.txt") "content")], .ok ()) := by
  have h := c6_file_dir_discrimination.2.1 fsAllOk
    [pathFrom "include", pathFrom "CMakeLists.txt"] "content" (fun _ => rfl)
  rw [h]
  rfl

/-- Claim C7: if a filesystem operation fails on some path, generation
returns that error immediately, attempts no operation for the later
paths, and the operations for all earlier paths have been attempted. -/
theorem c7_abort_on_first_error
    (fs : FsOp → Except String Unit) (contents : String)
    (ps1 : List Path) (p : Path) (ps2 : List Path) (e : String)
    (hok : ∀ q ∈ ps1, fs (opFor contents q) = .ok ())
    (herr : fs (opFor contents p) = .error e) :
    create_all_paths fs (ps1 ++ p :: ps2) contents false
      = .ok (ps1.map (fun q => Ev.fsDo (opFor contents q)) ++ [Ev.fsDo (opFor contents p)],
             .error e) := by
  induction ps1 with
  | nil =>
    simp only [List.nil_append, create_all_paths, Bool.false_eq_true, ite_false]
    rw [show (if Path.endsWithName p CMLT_FILE_NAME then FsOp.writeFile p contents
          else FsOp.createDirAll p) = opFor contents p from rfl, herr]
    simp
  | cons q qs ih =>
    have hq : fs (opFor contents q) = .ok () := hok q (List.mem_cons_self q qs)
    have ih' := ih (fun r hr => hok r (List.mem_cons_of_mem q hr))
    simp only [List.cons_append, create_all_paths, Bool.false_eq_true, ite_false]
    rw [show (if Path.endsWithName q CMLT_FILE_NAME then FsOp.writeFile q contents
          else FsOp.createDirAll q) = opFor contents q from rfl, hq]
    simp only [List.append_eq]
    rw [ih']
    simp

/-- Claim C7 witness: a concrete run where creating directory `bad`
fails; the earlier operation is attempted, the later one is not. -/
theorem c7_abort_on_first_error_witness :
    create_all_paths fsDenyBad ([pathFrom "ok1"] ++ pathFrom "bad" :: [pathFrom "never"])
        "content" false
      = .ok ([pathFrom "ok1"].map (fun q => Ev.fsDo (opFor "content" q)) ++
               [Ev.fsDo (opFor "content" (pathFrom "bad"))],
             .error "permission denied") :=
  c7_abort_on_first_error fsDenyBad "content" [pathFrom "ok1"] (pathFrom "bad")
    [pathFrom "never"] "permission denied"
    (by intro q hq; rw [List.mem_singleton] at hq; subst hq; rfl) rfl

theorem replaceL_nil_s (pat rep : List Char) (hp : pat ≠ []) : replaceL pat rep [] = [] := by
  unfold replaceL
  simp [hp]

theorem replaceL_cons_pos (pat rep : List Char) (c : Char) (cs : List Char)
    (hp : pat ≠ []) (h : pat <+: c :: cs) :
    replaceL pat rep (c :: cs) = rep ++ replaceL pat rep (cs.drop (pat.length - 1)) := by
  conv_lhs => rw [replaceL]
  simp [hp, h]

theorem replaceL_cons_neg (pat rep : List Char) (c : Char) (cs : List Char)
    (h : ¬ pat <+: c :: cs) :
    replaceL pat rep (c :: cs) = c :: replaceL pat rep cs := by
  have hp : pat ≠ [] := by
    intro he
    exact h (he ▸ List.nil_prefix)
  conv_lhs => rw [replaceL]
  simp [hp, h]

theorem replaceL_append_left (pat rep rest : List Char) (hp : pat ≠ []) :
    replaceL pat rep (pat ++ rest) = rep ++ replaceL pat rep rest := by
  cases pat with
  | nil => exact absurd rfl hp
  | cons p ps =>
    rw [show (p :: ps) ++ rest = p :: (ps ++ rest) from rfl]
    rw [replaceL_cons_pos _ _ _ _ hp
      (by simp only [← List.cons_append]; exact List.prefix_append (p :: ps) rest)]
    simp [List.drop_left]

theorem replaceL_of_not_infixL (pat rep : List Char) :
    ∀ s, ¬ pat <:+: s → replaceL pat rep s = s := by
  intro s
  induction s with
  | nil =>
    intro h
    have hp : pat ≠ [] := fun he => h (by simp [he])
    exact replaceL_nil_s _ _ hp
  | cons c cs ih =>
    intro h
    have h1 : ¬ pat <+: c :: cs := fun hh => h hh.isInfix
    rw [replaceL_cons_neg _ _ _ _ h1, ih (fun hi => h (List.infix_cons hi))]

theorem prefix_append_cases {p x y : List Char} (h : p <+: x ++ y) :
    p <+: x ∨ x <+: p :=
  List.prefix_or_prefix_of_prefix h (List.prefix_append x y)

theorem replaceL_append_skip (pat rep b : List Char) (_hp : pat ≠ []) :
    ∀ a, (∀ s, s ≠ [] → s <:+ a → ¬ pat <+: s ++ b) →
      replaceL pat rep (a ++ b) = a ++ replaceL pat rep b := by
  intro a
  induction a with
  | nil => intro _; simp
  | cons c a' ih =>
    intro h
    have h1 : ¬ pat <+: (c :: a') ++ b :=
      h (c :: a') (by simp) (List.suffix_refl _)
    rw [List.cons_append, replaceL_cons_neg _ _ _ _ (by simp only [List.cons_append] at h1; exact h1),
      ih (fun s hs hsuf => h s hs (hsuf.trans (List.suffix_cons c a')))]
    rfl

theorem joinWith_cons₂ (sep p q : List Char) (ps : List (List Char)) :
    joinWith sep (p :: q :: ps) = p ++ sep ++ joinWith sep (q :: ps) := rfl

theorem head_prefix_joinWith (sep p : List Char) (ps : List (List Char)) :
    p <+: joinWith sep (p :: ps) := by
  cases ps with
  | nil => exact List.prefix_refl p
  | cons q ps' =>
    rw [joinWith_cons₂, List.append_assoc]
    exact List.prefix_append p _

theorem replaceL_decomp (k v : List Char) (hk : k ≠ []) :
    ∀ t, ∃ ps : List (List Char), ps ≠ [] ∧ (∀ p ∈ ps, ¬ k <:+: p) ∧
      t = joinWith k ps ∧ replaceL k v t = joinWith v ps := by
  suffices h : ∀ n t, t.length ≤ n → ∃ ps : List (List Char), ps ≠ [] ∧
      (∀ p ∈ ps, ¬ k <:+: p) ∧ t = joinWith k ps ∧ replaceL k v t = joinWith v ps from
    fun t => h t.length t le_rfl
  intro n
  induction n with
  | zero =>
    intro t hlen
    have ht : t = [] := List.length_eq_zero.mp (Nat.le_zero.mp hlen)
    subst ht
    refine ⟨[[]], by simp, ?_, rfl, ?_⟩
    · intro p hp
      rw [List.mem_singleton] at hp
      subst hp
      rw [List.infix_nil]
      exact hk
    · rw [replaceL_nil_s _ _ hk]
      rfl
  | succ n ih =>
    intro t hlen
    by_cases h1 : k <+: t
    · obtain ⟨r, hr⟩ := h1
      subst hr
      have hlenr : r.length ≤ n := by
        have h' : k.length + r.length ≤ n + 1 := by simpa using hlen
        have hpos : 0 < k.length := List.length_pos.mpr hk
        omega
      obtain ⟨ps, hne, hfree, hjr, hrep⟩ := ih r hlenr
      cases ps with
      | nil => exact absurd rfl hne
      | cons p0 ps' =>
        refine ⟨[] :: p0 :: ps', by simp, ?_, ?_, ?_⟩
        · intro p hp
          rcases List.mem_cons.mp hp with hp0 | hp1
          · subst hp0
            rw [List.infix_nil]
            exact hk
          · exact hfree p hp1
        · rw [joinWith_cons₂, hjr]
          simp
        · rw [replaceL_append_left _ _ _ hk, hrep, joinWith_cons₂]
          simp
    · cases t with
      | nil =>
        refine ⟨[[]], by simp, ?_, rfl, ?_⟩
        · intro p hp
          rw [List.mem_singleton] at hp
          subst hp
          rw [List.infix_nil]
          exact hk
        · rw [replaceL_nil_s _ _ hk]
          rfl
      | cons c cs =>
        obtain ⟨ps, hne, hfree, hjr, hrep⟩ := ih cs (Nat.le_of_succ_le_succ (by simpa using hlen))
        cases ps with
        | nil => exact absurd rfl hne
        | cons p0 ps' =>
          refine ⟨(c :: p0) :: ps', by simp, ?_, ?_, ?_⟩
          · intro p hp
            rcases List.mem_cons.mp hp with hp0 | hp1
            · subst hp0
              intro hi
              rcases List.infix_cons_iff.mp hi with hpre | hinf
              · have hp0cs : p0 <+: cs := hjr ▸ head_prefix_joinWith k p0 ps'
                have : k <+: c :: cs :=
                  hpre.trans (List.cons_prefix_cons.mpr ⟨rfl, hp0cs⟩)
                exact h1 this
              · exact hfree p0 (List.mem_cons_self p0 ps') hinf
            · exact hfree p (List.mem_cons_of_mem p0 hp1)
          · cases ps' with
            | nil =>
              have : cs = p0 := hjr
              rw [this]
              rfl
            | cons q ps'' =>
              rw [joinWith_cons₂] at hjr
              rw [joinWith_cons₂, hjr]
              simp
          · rw [replaceL_cons_neg _ _ _ _ h1, hrep]
            cases ps' with
            | nil => rfl
            | cons q ps'' =>
              rw [joinWith_cons₂, joinWith_cons₂]
              simp

/-- Claim C3: rendering replaces every occurrence of a placeholder key
present in the map with its value (the template splits into key-free
segments joined by the key, and the result is the same segments joined
by the value), and when no key of the map occurs in the template the
template passes through verbatim; rendering is total, so no error is
raised. -/
theorem c3_render_full_replacement :
    (∀ (k v t : String), k.data ≠ [] →
        ∃ ps : List (List Char), ps ≠ [] ∧ (∀ p ∈ ps, ¬ k.data <:+: p) ∧
          t.data = joinWith k.data ps ∧
          (replace_cmake_vars t [(k, v)]).data = joinWith v.data ps) ∧
    (∀ (t : String) (m : List (String × String)),
        (∀ kv ∈ m, ¬ kv.1.data <:+: t.data) → replace_cmake_vars t m = t) := by
  constructor
  · intro k v t hk
    exact replaceL_decomp k.data v.data hk t.data
  · intro t m
    induction m generalizing t with
    | nil => intro _; rfl
    | cons kv m ih =>
      intro h
      have hstep : strReplace t kv.1 kv.2 = t := by
        unfold strReplace
        rw [replaceL_of_not_infixL _ _ t.data (h kv (List.mem_cons_self kv m))]
      have hfold : replace_cmake_vars t (kv :: m)
          = replace_cmake_vars (strReplace t kv.1 kv.2) m := rfl
      rw [hfold, hstep]
      exact ih t (fun kv' h' => h kv' (List.mem_cons_of_mem kv h'))

/-- Claim C3 witness: full replacement instantiated on a concrete
template with one placeholder, and verbatim pass-through on a template
containing none of the map's keys. -/
theorem c3_render_full_replacement_witness :
    (∃ ps : List (List Char), ps ≠ [] ∧ (∀ p ∈ ps, ¬ ("@K@").data <:+: p) ∧
        ("a@K@b").data = joinWith ("@K@").data ps ∧
        (replace_cmake_vars "a@K@b" [("@K@", "V")]).data = joinWith ("V").data ps) ∧
    replace_cmake_vars "plain text" [("@MISSING@", "x")] = "plain text" :=
  ⟨c3_render_full_replacement.1 "@K@" "V" "a@K@b" (by decide),
   c3_render_full_replacement.2 "plain text" [("@MISSING@", "x")] (by decide)⟩

theorem flattenS_append (A B : List Seg) :
    flattenS (A ++ B) = flattenS A ++ flattenS B := by
  induction A with
  | nil => rfl
  | cons sg A ih => cases sg <;> simp [flattenS, ih]

theorem mem_segContent_of_mem_flattenS_substAll (a : Char) :
    ∀ M : List Seg, a ∈ flattenS (substAll M) → ∃ sg ∈ M, a ∈ segContent sg := by
  intro M
  induction M with
  | nil => intro h; simp [substAll, flattenS] at h
  | cons sg M ih =>
    intro h
    cases sg with
    | lit l =>
      rw [show substAll (Seg.lit l :: M) = Seg.lit l :: substAll M from rfl,
        show flattenS (Seg.lit l :: substAll M) = l ++ flattenS (substAll M) from rfl] at h
      rcases List.mem_append.mp h with h1 | h2
      · exact ⟨Seg.lit l, List.mem_cons_self _ _, h1⟩
      · obtain ⟨sg, hsg, ha⟩ := ih h2
        exact ⟨sg, List.mem_cons_of_mem _ hsg, ha⟩
    | tok k v =>
      rw [show substAll (Seg.tok k v :: M) = Seg.lit v :: substAll M from rfl,
        show flattenS (Seg.lit v :: substAll M) = v ++ flattenS (substAll M) from rfl] at h
      rcases List.mem_append.mp h with h1 | h2
      · exact ⟨Seg.tok k v, List.mem_cons_self _ _, h1⟩
      · obtain ⟨sg, hsg, ha⟩ := ih h2
        exact ⟨sg, List.mem_cons_of_mem _ hsg, ha⟩

theorem substAll_substTok (k v : List Char) :
    ∀ segs : List Seg, (∀ vx, Seg.tok k vx ∈ segs → vx = v) →
      substAll (substTok k v segs) = substAll segs := by
  intro segs
  induction segs with
  | nil => intro _; rfl
  | cons sg rest ih =>
    intro h
    have ih' := ih (fun vx hvx => h vx (List.mem_cons_of_mem _ hvx))
    cases sg with
    | lit l =>
      show Seg.lit l :: substAll (substTok k v rest) = Seg.lit l :: substAll rest
      rw [ih']
    | tok x vx =>
      show substAll ((if x = k then Seg.lit v else Seg.tok x vx) :: substTok k v rest)
          = Seg.lit vx :: substAll rest
      by_cases hx : x = k
      · have hv : vx = v := h vx (by rw [← hx]; exact List.mem_cons_self _ _)
        rw [if_pos hx, hv]
        show Seg.lit v :: substAll (substTok k v rest) = Seg.lit v :: substAll rest
        rw [ih']
      · rw [if_neg hx]
        show Seg.lit vx :: substAll (substTok k v rest) = Seg.lit vx :: substAll rest
        rw [ih']

theorem straddle_find (c : Char) :
    ∀ (rest : List Seg) (w : List Char),
      (∀ l, Seg.lit l ∈ rest → c ∉ l) →
      (∀ x vx, Seg.tok x vx ∈ rest → Bracketed c x) →
      c ∉ w →
      w ++ [c] <+: flattenS rest →
      ∃ A y vy rest₂, rest = A ++ Seg.tok y vy :: rest₂ ∧
        (∀ sg ∈ A, ∃ l, sg = Seg.lit l) ∧ flattenS (substAll A) = w := by
  intro rest
  induction rest with
  | nil =>
    intro w _ _ _ hpre
    rw [show flattenS [] = [] from rfl, List.prefix_nil] at hpre
    exact absurd hpre (by simp)
  | cons sg rest ih =>
    intro w hlit htok hcw hpre
    cases sg with
    | tok y vy =>
      obtain ⟨u, hu_ne, hcu, hy⟩ := htok y vy (List.mem_cons_self _ _)
      cases hwv : w with
      | nil =>
        exact ⟨[], y, vy, rest, rfl, by simp, rfl⟩
      | cons a w' =>
        subst hwv
        exfalso
        rw [show flattenS (Seg.tok y vy :: rest) = y ++ flattenS rest from rfl, hy] at hpre
        have ha : a = c :=
          (List.cons_prefix_cons.mp
            (show a :: (w' ++ [c]) <+: c :: ((u ++ [c]) ++ flattenS rest) from hpre)).1
        exact hcw (ha ▸ List.mem_cons_self a w')
    | lit l =>
      have hcl : c ∉ l := hlit l (List.mem_cons_self _ _)
      rw [show flattenS (Seg.lit l :: rest) = l ++ flattenS rest from rfl] at hpre
      rcases prefix_append_cases hpre with h1 | h2
      · exact absurd (h1.subset (by simp)) hcl
      · have hlen : l.length ≤ w.length := by
          by_contra hgt
          push_neg at hgt
          have hle : l.length ≤ w.length + 1 := by
            have := h2.length_le
            simpa using this
          have heq : l.length = w.length + 1 := Nat.le_antisymm hle hgt
          have hl : l = w ++ [c] :=
            (List.IsPrefix.eq_of_length h2 (by simpa using heq)).symm ▸ rfl
          exact hcl (hl ▸ List.mem_append_right w (List.mem_singleton.mpr rfl))
        have hl_w : l <+: w := by
          have h3 := List.prefix_iff_eq_take.mp h2
          rw [List.take_append_of_le_length hlen] at h3
          exact h3 ▸ List.take_prefix _ _
        obtain ⟨w', hw'⟩ := hl_w
        have hw'pre : w' ++ [c] <+: flattenS rest := by
          have hp2 : l ++ (w' ++ [c]) <+: l ++ flattenS rest := by
            have : (l ++ w') ++ [c] <+: l ++ flattenS rest := hw' ▸ hpre
            simpa [List.append_assoc] using this
          exact (List.prefix_append_right_inj l).mp hp2
        have hcw' : c ∉ w' := fun hc => hcw (hw' ▸ List.mem_append_right l hc)
        obtain ⟨A, y, vy, rest₂, hrest, hAlit, hAflat⟩ :=
          ih w' (fun l' hl' => hlit l' (List.mem_cons_of_mem _ hl'))
            (fun x vx hx => htok x vx (List.mem_cons_of_mem _ hx)) hcw' hw'pre
        refine ⟨Seg.lit l :: A, y, vy, rest₂, by rw [hrest]; rfl, ?_, ?_⟩
        · intro sg hsg
          rcases List.mem_cons.mp hsg with rfl | hmem
          · exact ⟨l, rfl⟩
          · exact hAlit sg hmem
        · show l ++ flattenS (substAll A) = w
          rw [hAflat]
          exact hw'

theorem replaceL_flattenS (c : Char) (k v : List Char) (hkb : Bracketed c k) :
    ∀ segs : List Seg,
      (∀ l, Seg.lit l ∈ segs → c ∉ l) →
      (∀ x vx, Seg.tok x vx ∈ segs → Bracketed c x) →
      (∀ A x vx M y vy C, segs = A ++ Seg.tok x vx :: (M ++ Seg.tok y vy :: C) →
          k ≠ c :: (flattenS (substAll M) ++ [c])) →
      replaceL k v (flattenS segs) = flattenS (substTok k v segs) := by
  obtain ⟨w, hw_ne, hcw, hk⟩ := hkb
  have hk_ne : k ≠ [] := by rw [hk]; simp
  intro segs
  induction segs with
  | nil =>
    intro _ _ _
    rw [show flattenS [] = [] from rfl, replaceL_nil_s _ _ hk_ne]
    rfl
  | cons sg rest ih =>
    intro hlit htok hgap
    have hlit' : ∀ l, Seg.lit l ∈ rest → c ∉ l :=
      fun l hl => hlit l (List.mem_cons_of_mem _ hl)
    have htok' : ∀ x vx, Seg.tok x vx ∈ rest → Bracketed c x :=
      fun x vx hx => htok x vx (List.mem_cons_of_mem _ hx)
    have hgap' : ∀ A x vx M y vy C, rest = A ++ Seg.tok x vx :: (M ++ Seg.tok y vy :: C) →
        k ≠ c :: (flattenS (substAll M) ++ [c]) := by
      intro A x vx M y vy C heq
      exact hgap (sg :: A) x vx M y vy C (by rw [heq]; rfl)
    have ihr := ih hlit' htok' hgap'
    cases sg with
    | lit l =>
      have hcl : c ∉ l := hlit l (List.mem_cons_self _ _)
      have hskip : replaceL k v (l ++ flattenS rest) = l ++ replaceL k v (flattenS rest) := by
        apply replaceL_append_skip _ _ _ hk_ne
        intro s hs hsuf hpre
        cases s with
        | nil => exact hs rfl
        | cons a s' =>
          have hca : c = a :=
            (List.cons_prefix_cons.mp
              (show c :: (w ++ [c]) <+: a :: (s' ++ flattenS rest) from hk ▸ hpre)).1
          exact hcl (hca ▸ hsuf.subset (List.mem_cons_self a s'))
      rw [show flattenS (Seg.lit l :: rest) = l ++ flattenS rest from rfl, hskip, ihr]
      rfl
    | tok x vx =>
      by_cases hx : x = k
      · rw [show flattenS (Seg.tok x vx :: rest) = x ++ flattenS rest from rfl, hx,
          replaceL_append_left _ _ _ hk_ne, ihr]
        show v ++ flattenS (substTok k v rest)
            = flattenS ((if k = k then Seg.lit v else Seg.tok k vx) :: substTok k v rest)
        rw [if_pos rfl]
        rfl
      · obtain ⟨u, hu_ne, hcu, hxval⟩ := htok x vx (List.mem_cons_self _ _)
        have hskip : replaceL k v (x ++ flattenS rest)
            = x ++ replaceL k v (flattenS rest) := by
          apply replaceL_append_skip _ _ _ hk_ne
          intro s hs hsuf hpre
          rcases List.suffix_cons_iff.mp (hxval ▸ hsuf) with hfull | htail
          · subst hfull
            rcases prefix_append_cases hpre with hks | hsk
            · rw [hk] at hks
              have h2 : w ++ [c] <+: u ++ [c] := (List.cons_prefix_cons.mp hks).2
              rcases Nat.lt_trichotomy w.length u.length with hlt | heq | hgt
              · have h3 := List.prefix_iff_eq_take.mp h2
                rw [List.take_append_of_le_length
                  (by simp only [List.length_append, List.length_cons, List.length_nil]; omega)] at h3
                have h4 : w ++ [c] <+: u := by rw [h3]; exact List.take_prefix _ _
                exact hcu (h4.subset (List.mem_append_right w (List.mem_singleton.mpr rfl)))
              · have h3 : w ++ [c] = u ++ [c] :=
                  List.IsPrefix.eq_of_length h2 (by simp [heq])
                exact hx (by rw [hxval, hk, List.append_cancel_right h3])
              · have h5 := h2.length_le
                simp only [List.length_append, List.length_cons, List.length_nil] at h5
                omega
            · rw [hk] at hsk
              have h2 : u ++ [c] <+: w ++ [c] := (List.cons_prefix_cons.mp hsk).2
              rcases Nat.lt_trichotomy u.length w.length with hlt | heq | hgt
              · have h3 := List.prefix_iff_eq_take.mp h2
                rw [List.take_append_of_le_length
                  (by simp only [List.length_append, List.length_cons, List.length_nil]; omega)] at h3
                have h4 : u ++ [c] <+: w := by rw [h3]; exact List.take_prefix _ _
                exact hcw (h4.subset (List.mem_append_right u (List.mem_singleton.mpr rfl)))
              · have h3 : u ++ [c] = w ++ [c] :=
                  List.IsPrefix.eq_of_length h2 (by simp [heq])
                exact hx (by rw [hxval, hk, List.append_cancel_right h3])
              · have h5 := h2.length_le
                simp only [List.length_append, List.length_cons, List.length_nil] at h5
                omega
          · obtain ⟨t, ht⟩ := htail
            rcases List.eq_nil_or_concat s with rfl | ⟨s₀, a, rfl⟩
            · exact hs rfl
            · have h3 : (t ++ s₀) ++ [a] = u ++ [c] := by
                simpa [List.concat_eq_append, List.append_assoc] using ht
              have h4 := List.append_inj' h3 rfl
              have hac : a = c := by simpa using h4.2
              have hts : t ++ s₀ = u := h4.1
              cases s₀ with
              | nil =>
                have hWpre : w ++ [c] <+: flattenS rest := by
                  have h6 : c :: (w ++ [c]) <+: c :: flattenS rest := by
                    simpa [hk, List.concat_eq_append, hac] using hpre
                  exact (List.cons_prefix_cons.mp h6).2
                obtain ⟨A, y, vy, rest₂, hrest, hAlit, hAflat⟩ :=
                  straddle_find c rest w hlit' htok' hcw hWpre
                exact hgap [] x vx A y vy rest₂ (by rw [List.nil_append, hrest])
                  (by rw [hk, hAflat])
              | cons b s₀' =>
                have hb : b ∈ u := hts ▸ List.mem_append_right t (List.mem_cons_self _ _)
                have hcb : c = b :=
                  (List.cons_prefix_cons.mp
                    (show c :: (w ++ [c]) <+: b :: ((s₀' ++ [c]) ++ flattenS rest) from by
                      simpa [hk, List.concat_eq_append, hac, List.cons_append,
                        List.append_assoc] using hpre)).1
                exact hcu (hcb ▸ hb)
        rw [show flattenS (Seg.tok x vx :: rest) = x ++ flattenS rest from rfl, hskip, ihr]
        show x ++ flattenS (substTok k v rest)
            = flattenS ((if x = k then Seg.lit v else Seg.tok x vx) :: substTok k v rest)
        rw [if_neg hx]
        rfl

theorem flattenS_substAll_eq_of_no_tok :
    ∀ segs : List Seg, (∀ k v, Seg.tok k v ∈ segs → False) →
      flattenS (substAll segs) = flattenS segs := by
  intro segs
  induction segs with
  | nil => intro _; rfl
  | cons sg rest ih =>
    intro h
    cases sg with
    | lit l =>
      show l ++ flattenS (substAll rest) = l ++ flattenS rest
      rw [ih (fun k v hkv => h k v (List.mem_cons_of_mem _ hkv))]
    | tok k v => exact absurd (List.mem_cons_self _ _) (fun hh => h k v hh)

theorem GoodTemplate_substTok (c : Char) (k v : List Char)
    (l' : List (List Char × List Char)) (segs : List Seg)
    (hg : GoodTemplate c ((k, v) :: l') segs) :
    GoodTemplate c l' (substTok k v segs) := by
  have hval_v : ∀ vx, Seg.tok k vx ∈ segs → vx = v := by
    intro vx hvx
    rcases List.mem_cons.mp (hg.tok_live k vx hvx) with h1 | h2
    · exact congrArg Prod.snd h1
    · exact absurd (List.mem_map_of_mem Prod.fst h2)
        (List.nodup_cons.mp hg.keys_nodup).1
  constructor
  · intro l hl
    obtain ⟨sg, hsg, hf⟩ := List.mem_map.mp hl
    cases sg with
    | lit l0 =>
      have : l0 = l := by simpa using hf
      exact this ▸ hg.lit_free l0 hsg
    | tok x vx =>
      by_cases hx : x = k
      · rw [show (match Seg.tok x vx with
            | .lit l => Seg.lit l
            | .tok x' vx' => if x' = k then Seg.lit v else Seg.tok x' vx')
            = if x = k then Seg.lit v else Seg.tok x vx from rfl, if_pos hx] at hf
        have : v = l := by simpa using hf
        exact this ▸ hg.vals_free (k, v) (List.mem_cons_self _ _)
      · rw [show (match Seg.tok x vx with
            | .lit l => Seg.lit l
            | .tok x' vx' => if x' = k then Seg.lit v else Seg.tok x' vx')
            = if x = k then Seg.lit v else Seg.tok x vx from rfl, if_neg hx] at hf
        exact absurd hf (by simp)
  · intro x vx hx
    obtain ⟨sg, hsg, hf⟩ := List.mem_map.mp hx
    cases sg with
    | lit l0 => exact absurd hf (by simp)
    | tok x' vx' =>
      by_cases hx' : x' = k
      · rw [show (match Seg.tok x' vx' with
            | .lit l => Seg.lit l
            | .tok x2 vx2 => if x2 = k then Seg.lit v else Seg.tok x2 vx2)
            = if x' = k then Seg.lit v else Seg.tok x' vx' from rfl, if_pos hx'] at hf
        exact absurd hf (by simp)
      · rw [show (match Seg.tok x' vx' with
            | .lit l => Seg.lit l
            | .tok x2 vx2 => if x2 = k then Seg.lit v else Seg.tok x2 vx2)
            = if x' = k then Seg.lit v else Seg.tok x' vx' from rfl, if_neg hx'] at hf
        obtain ⟨rfl, rfl⟩ : x' = x ∧ vx' = vx := by
          constructor <;> [exact (Seg.tok.injEq _ _ _ _).mp hf |>.1;
            exact (Seg.tok.injEq _ _ _ _).mp hf |>.2]
        rcases List.mem_cons.mp (hg.tok_live x' vx' hsg) with h1 | h2
        · exact absurd (congrArg Prod.fst h1) hx'
        · exact h2
  · exact fun kv hkv => hg.keys_bracketed kv (List.mem_cons_of_mem _ hkv)
  · exact fun kv hkv => hg.vals_free kv (List.mem_cons_of_mem _ hkv)
  · exact (List.nodup_cons.mp hg.keys_nodup).2
  · intro A' x vx M' y vy C' heq kv hkv
    have heq' : List.map (fun sg => match sg with
        | Seg.lit l => Seg.lit l
        | Seg.tok x' vx' => if x' = k then Seg.lit v else Seg.tok x' vx') segs
        = A' ++ Seg.tok x vx :: (M' ++ Seg.tok y vy :: C') := heq
    obtain ⟨A, r1, hsegs1, hA, hr1⟩ := List.map_eq_append_iff.mp heq'
    obtain ⟨sgx, r2, hr1eq, hfx, hr2⟩ := List.map_eq_cons_iff.mp hr1
    obtain ⟨M, r3, hr2eq, hM, hr3⟩ := List.map_eq_append_iff.mp hr2
    obtain ⟨sgy, C, hr3eq, hfy, hC⟩ := List.map_eq_cons_iff.mp hr3
    have hsgx : sgx = Seg.tok x vx := by
      cases sgx with
      | lit l0 => exact absurd (show Seg.lit l0 = Seg.tok x vx from hfx) (by simp)
      | tok x' vx' =>
        have hfx' : (if x' = k then Seg.lit v else Seg.tok x' vx') = Seg.tok x vx := hfx
        by_cases hx' : x' = k
        · rw [if_pos hx'] at hfx'
          exact absurd hfx' (by simp)
        · rw [if_neg hx'] at hfx'
          exact hfx'
    have hsgy : sgy = Seg.tok y vy := by
      cases sgy with
      | lit l0 => exact absurd (show Seg.lit l0 = Seg.tok y vy from hfy) (by simp)
      | tok y' vy' =>
        have hfy' : (if y' = k then Seg.lit v else Seg.tok y' vy') = Seg.tok y vy := hfy
        by_cases hy' : y' = k
        · rw [if_pos hy'] at hfy'
          exact absurd hfy' (by simp)
        · rw [if_neg hy'] at hfy'
          exact hfy'
    have hdecomp : segs = A ++ Seg.tok x vx :: (M ++ Seg.tok y vy :: C) := by
      rw [hsegs1, hr1eq, hr2eq, hr3eq, hsgx, hsgy]
    have hgap := hg.gap_free A x vx M y vy C hdecomp kv (List.mem_cons_of_mem _ hkv)
    have hMsub : ∀ vx0, Seg.tok k vx0 ∈ M → vx0 = v := by
      intro vx0 hvx0
      apply hval_v
      rw [hdecomp]
      exact List.mem_append_right _
        (List.mem_cons_of_mem _ (List.mem_append_left _ hvx0))
    have hMM' : flattenS (substAll M') = flattenS (substAll M) := by
      rw [← hM]
      show flattenS (substAll (substTok k v M)) = flattenS (substAll M)
      rw [substAll_substTok k v M hMsub]
    rw [hMM']
    exact hgap

theorem GoodTemplate_perm (c : Char) (m1 m2 : List (List Char × List Char)) (segs : List Seg)
    (hp : m1.Perm m2) (hg : GoodTemplate c m1 segs) : GoodTemplate c m2 segs := by
  refine ⟨hg.lit_free, fun k v hkv => hp.mem_iff.mp (hg.tok_live k v hkv),
    fun kv hkv => hg.keys_bracketed kv (hp.mem_iff.mpr hkv),
    fun kv hkv => hg.vals_free kv (hp.mem_iff.mpr hkv),
    ((hp.map Prod.fst).nodup_iff).mp hg.keys_nodup,
    fun A x vx M y vy C heq kv hkv =>
      hg.gap_free A x vx M y vy C heq kv (hp.mem_iff.mpr hkv)⟩

theorem render_fold (c : Char) :
    ∀ (l : List (List Char × List Char)) (segs : List Seg),
      GoodTemplate c l segs →
      List.foldl (fun r kv => replaceL kv.1 kv.2 r) (flattenS segs) l
        = flattenS (substAll segs) := by
  intro l
  induction l with
  | nil =>
    intro segs hg
    show flattenS segs = flattenS (substAll segs)
    exact (flattenS_substAll_eq_of_no_tok segs (fun k v hkv => by
      have := hg.tok_live k v hkv
      simp at this)).symm
  | cons kv l' ih =>
    intro segs hg
    obtain ⟨k, v⟩ := kv
    have hstep : replaceL k v (flattenS segs) = flattenS (substTok k v segs) :=
      replaceL_flattenS c k v (hg.keys_bracketed (k, v) (List.mem_cons_self _ _)) segs
        hg.lit_free
        (fun x vx hx => hg.keys_bracketed (x, vx) (hg.tok_live x vx hx))
        (fun A x vx M y vy C heq =>
          hg.gap_free A x vx M y vy C heq (k, v) (List.mem_cons_self _ _))
    rw [List.foldl_cons]
    show List.foldl _ (replaceL k v (flattenS segs)) l' = _
    rw [hstep, ih (substTok k v segs) (GoodTemplate_substTok c k v l' segs hg)]
    rw [substAll_substTok k v segs (by
      intro vx hvx
      rcases List.mem_cons.mp (hg.tok_live k vx hvx) with h1 | h2
      · exact congrArg Prod.snd h1
      · exact absurd (List.mem_map_of_mem Prod.fst h2)
          (List.nodup_cons.mp hg.keys_nodup).1)]

theorem gap_free_of_marker (c d : Char) (hdc : d ≠ c)
    (m : List (List Char × List Char)) (segs : List Seg)
    (hm : ∀ kv ∈ m, d ∈ kv.1)
    (hsegs : ∀ sg ∈ segs, d ∉ segContent sg) :
    ∀ A x vx M y vy C, segs = A ++ Seg.tok x vx :: (M ++ Seg.tok y vy :: C) →
      ∀ kv ∈ m, kv.1 ≠ c :: (flattenS (substAll M) ++ [c]) := by
  intro A x vx M y vy C heq kv hkv hk
  have hd : d ∈ c :: (flattenS (substAll M) ++ [c]) := hk ▸ hm kv hkv
  rcases List.mem_cons.mp hd with h1 | h2
  · exact hdc h1
  rcases List.mem_append.mp h2 with h3 | h4
  · obtain ⟨sg, hsg, hd2⟩ := mem_segContent_of_mem_flattenS_substAll d M h3
    have hsg_segs : sg ∈ segs := by
      rw [heq]
      exact List.mem_append_right _
        (List.mem_cons_of_mem _ (List.mem_append_left _ hsg))
    exact hsegs sg hsg_segs hd2
  · exact hdc (List.mem_singleton.mp h4)

theorem replace_cmake_vars_data (m : List (String × String)) :
    ∀ t : String, (replace_cmake_vars t m).data
      = List.foldl (fun r kv => replaceL kv.1 kv.2 r) t.data
          (m.map (fun kv => (kv.1.data, kv.2.data))) := by
  induction m with
  | nil => intro t; rfl
  | cons kv m ih =>
    intro t
    show (replace_cmake_vars (strReplace t kv.1 kv.2) m).data = _
    rw [ih (strReplace t kv.1 kv.2)]
    rfl

/-- Claim C8: under the disjointness precondition — formalised
template-dependently by `GoodTemplate`: the template is an alternation
of literal segments and whole occurrences of the map's keys, the keys
are marker-bracketed (the `@`-syntax of the program's placeholders) and
pairwise distinct, values and literals are marker-free, and no key
equals the bracketing of any inter-token gap — rendering yields the
same result for every iteration order of the variable map. -/
theorem c8_render_order_independent (c : Char) (t : String)
    (m1 m2 : List (String × String)) (segs : List Seg)
    (hperm : m1.Perm m2)
    (hgood : GoodTemplate c (m1.map (fun kv => (kv.1.data, kv.2.data))) segs)
    (hflat : t.data = flattenS segs) :
    replace_cmake_vars t m1 = replace_cmake_vars t m2 := by
  apply String.ext
  rw [replace_cmake_vars_data m1 t, replace_cmake_vars_data m2 t, hflat]
  rw [render_fold c (m1.map (fun kv => (kv.1.data, kv.2.data))) segs hgood,
    render_fold c (m2.map (fun kv => (kv.1.data, kv.2.data))) segs
      (GoodTemplate_perm c _ _ segs (hperm.map (fun kv => (kv.1.data, kv.2.data))) hgood)]

/-- Claim C8 witness: the program's own placeholders
`@CMAKE_MINIMUM_VERSION@` and `@CMAKE_PROJECT_NAME@` applied in both
orders on a concrete template give the same rendering. -/
theorem c8_render_order_independent_witness :
    replace_cmake_vars "cmake(@CMAKE_MINIMUM_VERSION@)(@CMAKE_PROJECT_NAME@)"
        [("@CMAKE_MINIMUM_VERSION@", "3.15.0"), ("@CMAKE_PROJECT_NAME@", "acme-widget")]
      = replace_cmake_vars "cmake(@CMAKE_MINIMUM_VERSION@)(@CMAKE_PROJECT_NAME@)"
        [("@CMAKE_PROJECT_NAME@", "acme-widget"), ("@CMAKE_MINIMUM_VERSION@", "3.15.0")] := by
  apply c8_render_order_independent '@' _ _ _
    [Seg.lit "cmake(".data,
     Seg.tok "@CMAKE_MINIMUM_VERSION@".data "3.15.0".data,
     Seg.lit ")(".data,
     Seg.tok "@CMAKE_PROJECT_NAME@".data "acme-widget".data,
     Seg.lit ")".data]
    (List.Perm.swap ("@CMAKE_PROJECT_NAME@", "acme-widget")
      ("@CMAKE_MINIMUM_VERSION@", "3.15.0") [])
  · constructor
    · intro l hl
      simp only [List.mem_cons, List.not_mem_nil, or_false] at hl
      rcases hl with h | h | h | h | h
      · injection h with h1; subst h1; decide
      · exact absurd h (by simp)
      · injection h with h1; subst h1; decide
      · exact absurd h (by simp)
      · injection h with h1; subst h1; decide
    · intro k v hkv
      simp only [List.mem_cons, List.not_mem_nil, or_false] at hkv
      rcases hkv with h | h | h | h | h
      · exact absurd h (by simp)
      · injection h with h1 h2; subst h1; subst h2; decide
      · exact absurd h (by simp)
      · injection h with h1 h2; subst h1; subst h2; decide
      · exact absurd h (by simp)
    · intro kv hkv
      simp only [List.map_cons, List.map_nil, List.mem_cons, List.not_mem_nil, or_false] at hkv
      rcases hkv with rfl | rfl
      · exact ⟨"CMAKE_MINIMUM_VERSION".data, by decide, by decide, by decide⟩
      · exact ⟨"CMAKE_PROJECT_NAME".data, by decide, by decide, by decide⟩
    · intro kv hkv
      simp only [List.map_cons, List.map_nil, List.mem_cons, List.not_mem_nil, or_false] at hkv
      rcases hkv with rfl | rfl <;> decide
    · decide
    · apply gap_free_of_marker '@' '_' (by decide)
      · intro kv hkv
        simp only [List.map_cons, List.map_nil, List.mem_cons, List.not_mem_nil, or_false] at hkv
        rcases hkv with rfl | rfl <;> decide
      · intro sg hsg
        simp only [List.mem_cons, List.not_mem_nil, or_false] at hsg
        rcases hsg with rfl | rfl | rfl | rfl | rfl <;> decide
  · rfl

end Cpg
